import Mathlib

/-!
Verification development for vimb's key-mapping engine (src/map.c) and
ex command-line interpreter (src/ex.c).

Bytes of the internal key alphabet are modelled as `Nat` (values 0..255);
C strings are modelled as `List Char` (ex.c) or `List Nat` (map.c) without
the terminating NUL, with explicit NUL sentinels where the C code reads the
terminator.  Loops are modelled with explicit fuel so that every definition
is executable and kernel-reducible.
-/

namespace Vimb

/-- Modelled from the spec: the escape-introducer sentinel byte `CSI` for
3-byte special-key triplets (defined in ascii.h, which is not part of the
provided sources).  The concrete value only needs to be a byte distinct
from the printable ASCII bytes used in the claims. -/
def CSI : Nat := 0x9b

/-- Modelled from the spec: the single control byte for Backspace (`KEY_BS`
in ascii.h, not part of the provided sources); the spec fixes it to 0x08. -/
def KEY_BS : Nat := 0x08

/-- Modelled from the spec: the single control byte for Tab (`KEY_TAB`). -/
def KEY_TAB : Nat := 0x09

/-- Modelled from the spec: the single control byte for Linefeed (`KEY_NL`). -/
def KEY_NL : Nat := 0x0a

/-- Modelled from the spec: the single control byte for Return (`KEY_CR`);
convert_keylabel in map.c (in the sources) maps `<CR>` to the byte 0x0a and
the spec guarantees label/event agreement, forcing the same byte here. -/
def KEY_CR : Nat := 0x0a

/-- Modelled from the spec: the single control byte for Escape (`KEY_ESC`);
convert_keylabel maps `<Esc>` to 0x1b. -/
def KEY_ESC : Nat := 0x1b

/-- Modelled from the spec: `TERMCAP2KEY(a,b)` packs the two identifying
bytes of a 3-byte special-key triplet into one downstream key value
(map.h is not part of the provided sources); the packing is injective,
which is all the claims rely on. -/
def termcap2key (a b : Nat) : Nat := a + 256 * b

/-- C sign semantics of `int qk = map.queue[0]` on a platform with signed
char: bytes at and above 0x80 arrive downstream as negative ints. -/
def byteToKeyInt (b : Nat) : Int := if b < 128 then (b : Int) else (b : Int) - 256

/-- One mapping rule of map.c's `Map` struct: `in`/`inlen` become `inp`
(with length `inp.length`), `mapped`/`mappedlen` become `mapped`, and
`mode` is the mode character's byte. -/
structure MapRule where
  inp : List Nat
  mapped : List Nat
  mode : Nat
  deriving Repr, DecidableEq

/-- C `strncmp(a, b, n) == 0`, with the end of a modelled (NUL-free) string
acting as the NUL terminator: comparison stops early at a NUL that both
sides share, and a NUL against a non-NUL byte is a mismatch. -/
def cstrncmpEq : List Nat → List Nat → Nat → Bool
  | _, _, 0 => true
  | [], [], _ + 1 => true
  | [], b :: _, _ + 1 => b == 0
  | a :: _, [], _ + 1 => a == 0
  | a :: as, b :: bs, n + 1 =>
    if a ≠ b then false
    else if a == 0 then true
    else cstrncmpEq as bs n

/-- Mutable state of map.c's static `map` struct that `map_handle_keys`
reads and writes: the pending key queue (`queue`/`qlen` is `queue.length`),
the `resolved` counter (a C int, hence `Int`), and the active mode's
`FLAG_NOMAP` bit, which the drain loop clears.  The rule list is passed
separately since `map_handle_keys` never modifies it. -/
structure MapState where
  queue : List Nat
  resolved : Int
  noMap : Bool
  deriving Repr, DecidableEq

/-- Result values of `map_handle_keys` (the `MapState` enum of map.h). -/
inductive MapResult where
  | done
  | nomatch
  | ambiguous
  deriving Repr, DecidableEq

/-- The inner drain loop of map_handle_keys (`while (map.resolved > 0)`):
pop one resolved unit from the queue head — a 3-byte CSI triplet if the
head byte is CSI and at least 3 bytes are queued, else a single byte —
clear the no-remap flag, and send the unit downstream (collected in `em`).
Each iteration decreases `resolved` by at least 1, so fuel
`resolved.toNat` is always sufficient; the `[]`-with-positive-`resolved`
case cannot arise from reachable states (resolved never exceeds qlen). -/
def drainGo : Nat → Int → List Nat → Bool → List Int →
    Int × List Nat × Bool × List Int
  | 0, res, q, nm, em => (res, q, nm, em)
  | n + 1, res, q, nm, em =>
    if res ≤ 0 then (res, q, nm, em)
    else
      match q with
      | [] => (res, q, nm, em)
      | b :: rest =>
        if b == CSI && 3 ≤ q.length then
          drainGo n (res - 3) (q.drop 3) false
            (em ++ [(termcap2key (q.getD 1 0) (q.getD 2 0) : Int)])
        else
          drainGo n (res - 1) rest false (em ++ [byteToKeyInt b])

/-- The ambiguity test of the match-search loop in map_handle_keys: some
rule of the active mode has an input strictly longer than the queue whose
first `qlen` bytes agree with the queue (`!timeout && m->inlen > map.qlen
&& !strncmp(m->in, map.queue, map.qlen)`). -/
def hasAmbiguous (rules : List MapRule) (mode : Nat) (timeout : Bool)
    (q : List Nat) : Bool :=
  !timeout && rules.any fun m =>
    m.mode == mode && q.length < m.inp.length && cstrncmpEq m.inp q q.length

/-- Whether a rule is an exact candidate for the current queue: its mode
matches, its input is no longer than the queue, and its input equals the
queue's head bytes (`m->inlen <= map.qlen && !strncmp(m->in, map.queue,
m->inlen)`). -/
def isExactCand (mode : Nat) (q : List Nat) (m : MapRule) : Bool :=
  m.mode == mode && m.inp.length ≤ q.length && cstrncmpEq m.inp q m.inp.length

/-- The exact-match selection of map_handle_keys: scan the rule list in
order, keeping the current candidate and replacing it only by a strictly
longer one (`!match || match->inlen < m->inlen`).  The C code computes
this and the ambiguity test in one pass over the list; the two
accumulators do not interact, so they are modelled as two scans. -/
def findExact (mode : Nat) (q : List Nat) : List MapRule → Option MapRule →
    Option MapRule
  | [], acc => acc
  | m :: rest, acc =>
    let better :=
      match acc with
      | none => true
      | some a => a.inp.length < m.inp.length
    findExact mode q rest (if isExactCand mode q m && better then some m else acc)

/-- The queue splice of map_handle_keys: the two shift loops plus the
`strncpy` of the mapped string amount to replacing the matched head bytes
by the replacement: `queue' = mapped ++ queue.drop inlen` (and
`qlen += mappedlen - inlen`).  In the growing case the C code performs
this on the fixed-size array without a capacity check. -/
def spliceQueue (m : MapRule) (q : List Nat) : List Nat :=
  m.mapped ++ q.drop m.inp.length

/-- The resolved-counter update after a splice: `map.resolved` becomes
`inlen` if `inlen <= mappedlen` and `mappedlen` otherwise. -/
def resolvedOf (m : MapRule) : Int :=
  if m.inp.length ≤ m.mapped.length then (m.inp.length : Int) else (m.mapped.length : Int)

/-- The outer `while (true)` loop of map_handle_keys, with fuel.
`lastMatch` is the C local `match` from the previous iteration (reset at
the top of the search each iteration), which decides MAP_DONE versus
MAP_NOMATCH when the queue drains.  Returns the result code, the final
state, and the keys emitted downstream; `none` means the fuel ran out. -/
def runLoop (rules : List MapRule) (mode : Nat) (useMap timeout : Bool) :
    Nat → MapState → Option MapRule → List Int →
    Option (MapResult × MapState × List Int)
  | 0, _, _, _ => none
  | fuel + 1, st, lastMatch, em =>
    let d := drainGo st.resolved.toNat st.resolved st.queue st.noMap em
    let res1 := d.1
    let q1 := d.2.1
    let nm1 := d.2.2.1
    let em1 := d.2.2.2
    if q1.length == 0 then
      some (if lastMatch.isSome then .done else .nomatch, ⟨q1, 0, nm1⟩, em1)
    else
      let useRules := useMap && !nm1
      let amb := useRules && hasAmbiguous rules mode timeout q1
      let mtch := if useRules then findExact mode q1 rules none else none
      if amb then some (.ambiguous, ⟨q1, res1, nm1⟩, em1)
      else
        match mtch with
        | some m =>
          runLoop rules mode useMap timeout fuel
            ⟨spliceQueue m q1, resolvedOf m, nm1⟩ (some m) em1
        | none => runLoop rules mode useMap timeout fuel ⟨q1, 1, nm1⟩ none em1

/-- map_handle_keys: a timeout is signalled by an empty key batch; the
incoming keys are appended to the queue tail, dropping bytes beyond the
fixed capacity `cap` (`MAP_QUEUE_SIZE`, a configuration constant modelled
as a parameter); then the resolve loop runs.  The timer arming
(`g_timeout_add`) is external and not modelled. -/
def mapHandleKeys (rules : List MapRule) (mode : Nat) (useMap : Bool)
    (cap : Nat) (fuel : Nat) (st : MapState) (keys : List Nat) :
    Option (MapResult × MapState × List Int) :=
  let timeout := keys.length == 0
  let q1 := st.queue ++ keys.take (cap - st.queue.length)
  runLoop rules mode useMap timeout fuel ⟨q1, st.resolved, st.noMap⟩ none []

/-- The initial map state: empty queue, nothing resolved, no-remap clear. -/
def initMapState : MapState := ⟨[], 0, false⟩

/-! The ex command-line interpreter (src/ex.c). -/

/-- The `ExCode` enum of ex.c (`FEATURE_QUEUE` enabled, as in the spec's
examples that use the queue commands). -/
inductive ExCode where
  | EX_BMA | EX_BMR | EX_EVAL | EX_CMAP | EX_IMAP | EX_NMAP
  | EX_CUNMAP | EX_IUNMAP | EX_NUNMAP | EX_OPEN
  | EX_QCLEAR | EX_QPOP | EX_QPUSH | EX_QUNSHIFT
  | EX_QUIT | EX_SAVE | EX_SCA | EX_SCD | EX_SCR
  | EX_SET | EX_SHELLCMD | EX_TABOPEN
  deriving Repr, DecidableEq, Inhabited

def EX_FLAG_NONE : Nat := 0x000
def EX_FLAG_BANG : Nat := 0x001
def EX_FLAG_LHS : Nat := 0x002
def EX_FLAG_RHS : Nat := 0x004

/-- One entry of ex.c's `ExInfo` command descriptor: full command name,
command code and argument-shape flags.  The handler function pointer is
modelled at dispatch time by an oracle (see `exRunStringGo`). -/
structure ExInfo where
  name : List Char
  code : ExCode
  flags : Nat
  deriving Repr, DecidableEq, Inhabited

/-- The static, order-significant `commands` table of ex.c, for a build
with `FEATURE_QUEUE` defined and with the `#if 0` blocks omitted, exactly
in source order. -/
def commandsList : List ExInfo := [
  ⟨"bma".toList,              .EX_BMA,      EX_FLAG_RHS⟩,
  ⟨"bmr".toList,              .EX_BMR,      EX_FLAG_RHS⟩,
  ⟨"cmap".toList,             .EX_CMAP,     EX_FLAG_LHS + EX_FLAG_RHS⟩,
  ⟨"cunmap".toList,           .EX_CUNMAP,   EX_FLAG_LHS⟩,
  ⟨"eval".toList,             .EX_EVAL,     EX_FLAG_RHS⟩,
  ⟨"imap".toList,             .EX_IMAP,     EX_FLAG_LHS + EX_FLAG_RHS⟩,
  ⟨"iunmap".toList,           .EX_IUNMAP,   EX_FLAG_LHS⟩,
  ⟨"nmap".toList,             .EX_NMAP,     EX_FLAG_LHS + EX_FLAG_RHS⟩,
  ⟨"nunmap".toList,           .EX_NUNMAP,   EX_FLAG_LHS⟩,
  ⟨"open".toList,             .EX_OPEN,     EX_FLAG_RHS⟩,
  ⟨"quit".toList,             .EX_QUIT,     EX_FLAG_NONE⟩,
  ⟨"qclear".toList,           .EX_QCLEAR,   EX_FLAG_RHS⟩,
  ⟨"qpop".toList,             .EX_QPOP,     EX_FLAG_NONE⟩,
  ⟨"qpush".toList,            .EX_QPUSH,    EX_FLAG_RHS⟩,
  ⟨"qunshift".toList,         .EX_QUNSHIFT, EX_FLAG_RHS⟩,
  ⟨"save".toList,             .EX_SAVE,     EX_FLAG_RHS⟩,
  ⟨"set".toList,              .EX_SET,      EX_FLAG_RHS⟩,
  ⟨"shellcmd".toList,         .EX_SHELLCMD, EX_FLAG_RHS⟩,
  ⟨"shortcut-add".toList,     .EX_SCA,      EX_FLAG_RHS⟩,
  ⟨"shortcut-default".toList, .EX_SCD,      EX_FLAG_RHS⟩,
  ⟨"shortcut-remove".toList,  .EX_SCR,      EX_FLAG_RHS⟩,
  ⟨"tabopen".toList,          .EX_TABOPEN,  EX_FLAG_RHS⟩]

/-- The NUL character, standing in for the C string terminator. -/
def nulChar : Char := Char.ofNat 0

/-- Reading `name[n]` of a C string modelled without its terminator:
positions at or past the end read the NUL terminator. -/
def charAtOrNul (s : List Char) (n : Nat) : Char := s.getD n nulChar

/-- C `strncmp(a, b, n) == 0` on `Char` lists (same semantics as
`cstrncmpEq`, used for the command-name table of ex.c). -/
def cstrncmpEqC : List Char → List Char → Nat → Bool
  | _, _, 0 => true
  | [], [], _ + 1 => true
  | [], b :: _, _ + 1 => b == nulChar
  | a :: _, [], _ + 1 => a == nulChar
  | a :: as, b :: bs, n + 1 =>
    if a ≠ b then false
    else if a == nulChar then true
    else cstrncmpEqC as bs n

/-- One pass of the candidate scan inside parse_command_name's do-while:
starting at index `i` over the remaining table entries, with accumulated
name prefix `p` (the chars before the current one) and current input char
`c`.  An entry whose name does not extend `p` ends the scan (the
commands-are-grouped break); an entry whose name's next char is `c` is a
match, and the first such entry index is recorded
(`if (!matches) first = i`). -/
def scanGo (p : List Char) (c : Char) : Nat → List ExInfo → Nat → Nat → Nat × Nat
  | _, [], first, mts => (first, mts)
  | i, cmd :: rest, first, mts =>
    if !p.isEmpty && !cstrncmpEqC cmd.name p p.length then (first, mts)
    else if charAtOrNul cmd.name p.length == c then
      scanGo p c (i + 1) rest (if mts == 0 then i else first) (mts + 1)
    else
      scanGo p c (i + 1) rest first mts

/-- The scan of parse_command_name starting from the previous `first`
index (`for (i = first, matches = 0; ...)`); returns the new
`(first, matches)`. -/
def scanFrom (p : List Char) (c : Char) (first : Nat) : Nat × Nat :=
  scanGo p c first (commandsList.drop first) first 0

/-- The do-while of parse_command_name: consume one input char per round
into the accumulated name, rescan, and stop on zero matches (failure), on
end of input or on a following space (success, selecting index `first`).
The `[]` case is only reachable on entry with `p = []` (the C body then
reads the NUL terminator and finds no match, since no command name is
empty). -/
def parseCmdNameGo : List Char → List Char → Nat → Option (Nat × List Char)
  | [], _, _ => none
  | c :: rest, p, first =>
    let fm := scanFrom p c first
    if fm.2 == 0 then none
    else if rest.isEmpty || rest.headD nulChar == ' ' then some (fm.1, rest)
    else parseCmdNameGo rest (p ++ [c]) fm.1

/-- parse_command_name: scan starts with an empty accumulated name at
table index 0; on success returns the selected table index and the
remaining input. -/
def parseCommandName (input : List Char) : Option (Nat × List Char) :=
  parseCmdNameGo input [] 0

/-- The digit-consuming do-while of parse_count.  The count accumulates
onto the incoming value of `arg->count`; the C code does not reset it
before accumulating.  (The C `int` is modelled as `Nat`; the claims stay
far below overflow.) -/
def parseCountGo : List Char → Nat → List Char × Nat
  | [], cnt => ([], cnt)
  | c :: rest, cnt =>
    if c.isDigit then parseCountGo rest (cnt * 10 + (c.toNat - 48))
    else (c :: rest, cnt)

/-- parse_count: with no leading digit (or at end of input) the count is
assigned 0; otherwise the digits accumulate onto the existing count. -/
def parseCount (l : List Char) (cnt : Nat) : List Char × Nat :=
  match l with
  | [] => ([], 0)
  | c :: rest =>
    if c.isDigit then parseCountGo (c :: rest) cnt
    else (c :: rest, 0)

/-- Result of parse_lhs / parse_rhs: the accumulated GString and the
remaining input, or `overrun` when the C code advances its read pointer
past the string's NUL terminator (its `if (!*input)` tests the pointer,
which is never null, instead of `**input`, so a trailing backslash
appends the backslash plus the NUL byte and then walks past the end of
the buffer — undefined behavior; `overrun` records the accumulated
GString contents at that point). -/
inductive ParsePR where
  | ok (acc rest : List Char)
  | overrun (acc : List Char)
  deriving Repr, DecidableEq

/-- The loop of parse_lhs: consume until an unescaped space; a backslash
consumes the next char, yielding a bare space for an escaped space and
backslash-plus-char otherwise. -/
def parseLhsGo : List Char → List Char → ParsePR
  | [], acc => .ok acc []
  | c :: rest, acc =>
    if c == ' ' then .ok acc (c :: rest)
    else if c == '\\' then
      match rest with
      | [] => .overrun (acc ++ ['\\', nulChar])
      | d :: rest' =>
        if d == ' ' then parseLhsGo rest' (acc ++ [' '])
        else parseLhsGo rest' (acc ++ ['\\', d])
    else parseLhsGo rest (acc ++ [c])

/-- parse_lhs on a fresh (truncated) lhs GString. -/
def parseLhs (input : List Char) : ParsePR := parseLhsGo input []

/-- The loop of parse_rhs: consume until an unescaped newline or `|`,
with the same backslash handling as parse_lhs (an escaped char is
consumed without being tested against the terminators). -/
def parseRhsGo : List Char → List Char → ParsePR
  | [], acc => .ok acc []
  | c :: rest, acc =>
    if c == '\n' || c == '|' then .ok acc (c :: rest)
    else if c == '\\' then
      match rest with
      | [] => .overrun (acc ++ ['\\', nulChar])
      | d :: rest' =>
        if d == ' ' then parseRhsGo rest' (acc ++ [' '])
        else parseRhsGo rest' (acc ++ ['\\', d])
    else parseRhsGo rest (acc ++ [c])

/-- parse_rhs on a fresh (truncated) rhs GString. -/
def parseRhs (input : List Char) : ParsePR := parseRhsGo input []

/-- skip_whitespace: drop leading spaces (only `' '`). -/
def skipWs : List Char → List Char
  | [] => []
  | c :: rest => if c == ' ' then skipWs rest else c :: rest

/-- The leading `while (**input == ':' || **input == ' ')` strip of
parse. -/
def stripColonSp : List Char → List Char
  | [] => []
  | c :: rest => if c == ':' || c == ' ' then stripColonSp rest else c :: rest

/-- The `ExArg` struct: parsed count, table index, selected code, bang
flag (never assigned by the parser, staying at its zero-initialised
`false`), and the lhs/rhs GStrings.  The `name` pointer is determined by
`idx` and is not duplicated here. -/
structure ExArg where
  count : Nat
  idx : Nat
  code : ExCode
  bang : Bool
  lhs : List Char
  rhs : List Char
  deriving Repr, DecidableEq

/-- The `g_new0`-fresh ExArg of ex_run_string (all fields zeroed, empty
GStrings). -/
def initExArg : ExArg := ⟨0, 0, .EX_BMA, false, [], []⟩

/-- Table access `commands[arg->idx]`; indices produced by a successful
parse_command_name are always in range. -/
def commandAt (idx : Nat) : ExInfo := commandsList.getD idx default

/-- Outcome of one `parse` call: failure (returns false), undefined
behavior propagated from parse_lhs / parse_rhs, or success with the
remaining input and the updated ExArg. -/
inductive ParseOut where
  | fail
  | ub
  | ok (rest : List Char) (arg : ExArg)
  deriving Repr, DecidableEq

/-- parse of ex.c: reject empty input, truncate lhs and rhs, strip
leading `:` and spaces, accumulate the count, resolve the command name
(failure aborts), then parse lhs and rhs as the command's flags request,
and finally consume one terminator char if input remains. -/
def exParse (input : List Char) (arg : ExArg) : ParseOut :=
  match input with
  | [] => .fail
  | _ :: _ =>
    let arg0 := { arg with lhs := [], rhs := [] }
    let i1 := stripColonSp input
    let pc := parseCount i1 arg0.count
    let arg1 := { arg0 with count := pc.2 }
    let i3 := skipWs pc.1
    match parseCommandName i3 with
    | none => .fail
    | some (idx, i4) =>
      let cmd := commandAt idx
      let arg2 := { arg1 with idx := idx, code := cmd.code }
      let i5 := skipWs i4
      let lhsStep : ParsePR :=
        if cmd.flags.land EX_FLAG_LHS ≠ 0 then parseLhs i5 else .ok arg2.lhs i5
      match lhsStep with
      | .overrun _ => .ub
      | .ok lhsAcc i6 =>
        let arg3 := { arg2 with lhs := lhsAcc }
        let i7 := skipWs i6
        let rhsStep : ParsePR :=
          if cmd.flags.land EX_FLAG_RHS ≠ 0 then parseRhs i7 else .ok arg3.rhs i7
        match rhsStep with
        | .overrun _ => .ub
        | .ok rhsAcc i8 =>
          let arg4 := { arg3 with rhs := rhsAcc }
          let i9 := match i8 with
            | [] => []
            | _ :: t => t
          .ok i9 arg4

/-- Outcome of ex_run_string: the boolean result together with the list
of ExArg values dispatched to `execute` (in order), or propagated
undefined behavior. -/
inductive RunOut where
  | finished (success : Bool) (trace : List ExArg)
  | ub (trace : List ExArg)
  deriving Repr, DecidableEq

/-- The loop of ex_run_string, with fuel (`none` = fuel exhausted).
`execute` dispatches `commands[arg->idx].func(arg)`; the handlers are
external collaborators, modelled by the boolean oracle `exec`.  Each
parsed command is appended to the dispatch trace when `execute` is
invoked on it; `!parse(&input, arg) || !execute(arg)` stops the loop and
returns false. -/
def exRunStringGo (exec : ExArg → Bool) : Nat → List Char → ExArg →
    List ExArg → Option RunOut
  | 0, _, _, _ => none
  | fuel + 1, input, arg, tr =>
    if input.isEmpty then some (.finished true tr)
    else
      match exParse input arg with
      | .fail => some (.finished false tr)
      | .ub => some (.ub tr)
      | .ok rest arg' =>
        if exec arg' then exRunStringGo exec fuel rest arg' (tr ++ [arg'])
        else some (.finished false (tr ++ [arg']))

/-- ex_run_string: run the loop on a fresh ExArg. -/
def exRunString (exec : ExArg → Bool) (fuel : Nat) (s : List Char) :
    Option RunOut :=
  exRunStringGo exec fuel s initExArg []

/-! The key encoder and key-label converter (map.c). -/

/-- GDK keyval constants (values from the external gdk keysym headers). -/
def GDK_Tab : Nat := 0xff09
def GDK_KP_Tab : Nat := 0xff89
def GDK_ISO_Left_Tab : Nat := 0xfe20
def GDK_Linefeed : Nat := 0xff0a
def GDK_Return : Nat := 0xff0d
def GDK_ISO_Enter : Nat := 0xff8d
def GDK_3270_Enter : Nat := 0xfd1e
def GDK_Escape : Nat := 0xff1b
def GDK_BackSpace : Nat := 0xff08

/-- GDK control modifier bit (external gdk header value `1 << 2`). -/
def GDK_CONTROL_MASK : Nat := 4

/-- Model of the external `gdk_keyval_to_unicode`: for printable ASCII
the keyval equals the Unicode code point; other keyvals are not needed by
any claim and map to 0 (no Unicode equivalent). -/
def gdkKeyvalToUnicode (k : Nat) : Nat :=
  if 0x20 ≤ k && k ≤ 0x7e then k else 0

/-- utf_char2bytes of map.c: encode a code point as UTF-8 bytes
(`>> n` is division, `& 0x3f` is `% 64`). -/
def utf_char2bytes (c : Nat) : List Nat :=
  if c < 0x80 then [c]
  else if c < 0x800 then [0xc0 + c / 64, 0x80 + c % 64]
  else if c < 0x10000 then
    [0xe0 + c / 4096, 0x80 + c / 64 % 64, 0x80 + c % 64]
  else if c < 0x200000 then
    [0xf0 + c / 262144, 0x80 + c / 4096 % 64, 0x80 + c / 64 % 64, 0x80 + c % 64]
  else if c < 0x4000000 then
    [0xf8 + c / 16777216, 0x80 + c / 262144 % 64, 0x80 + c / 4096 % 64,
     0x80 + c / 64 % 64, 0x80 + c % 64]
  else
    [0xfc + c / 1073741824, 0x80 + c / 16777216 % 64, 0x80 + c / 262144 % 64,
     0x80 + c / 4096 % 64, 0x80 + c / 64 % 64, 0x80 + c % 64]

/-- keyval_to_string of map.c: fixed control bytes for the named special
keys; otherwise, for a keyval with a Unicode value, a printable character
with Control held becomes a single control byte (`uc & 0x1f` from `'@'`
upward, the digit 8 becoming the backspace byte, anything else passed
through), and without Control the UTF-8 encoding; a keyval without a
Unicode value produces no bytes (length 0). -/
def keyvalToString (keyval state : Nat) : List Nat :=
  if keyval == GDK_Tab || keyval == GDK_KP_Tab || keyval == GDK_ISO_Left_Tab then
    [KEY_TAB]
  else if keyval == GDK_Linefeed then [KEY_NL]
  else if keyval == GDK_Return || keyval == GDK_ISO_Enter || keyval == GDK_3270_Enter then
    [KEY_CR]
  else if keyval == GDK_Escape then [KEY_ESC]
  else if keyval == GDK_BackSpace then [KEY_BS]
  else
    let uc := gdkKeyvalToUnicode keyval
    if uc ≠ 0 then
      if state.land GDK_CONTROL_MASK ≠ 0 && 0x20 ≤ uc && uc < 0x80 then
        if 0x40 ≤ uc then [uc.land 0x1f]
        else if uc == 0x38 then [KEY_BS]
        else [uc]
      else utf_char2bytes uc
    else []

/-- String literal to byte list, for writing key sequences. -/
def strBytes (s : String) : List Nat := s.toList.map Char.toNat

/-- The keylabel table of convert_keylabel: label bytes to raw bytes. -/
def keylabels : List (List Nat × List Nat) := [
  (strBytes "<CR>", [0x0a]),
  (strBytes "<Tab>", [0x09]),
  (strBytes "<S-Tab>", [CSI] ++ strBytes "kB"),
  (strBytes "<Esc>", [0x1b]),
  (strBytes "<Up>", [CSI] ++ strBytes "ku"),
  (strBytes "<Down>", [CSI] ++ strBytes "kd"),
  (strBytes "<Left>", [CSI] ++ strBytes "kl"),
  (strBytes "<Right>", [CSI] ++ strBytes "kr"),
  (strBytes "<F1>", [CSI] ++ strBytes "k1"),
  (strBytes "<F2>", [CSI] ++ strBytes "k2"),
  (strBytes "<F3>", [CSI] ++ strBytes "k3"),
  (strBytes "<F4>", [CSI] ++ strBytes "k4"),
  (strBytes "<F5>", [CSI] ++ strBytes "k5"),
  (strBytes "<F6>", [CSI] ++ strBytes "k6"),
  (strBytes "<F7>", [CSI] ++ strBytes "k7"),
  (strBytes "<F8>", [CSI] ++ strBytes "k8"),
  (strBytes "<F9>", [CSI] ++ strBytes "k9"),
  (strBytes "<F10>", [CSI] ++ strBytes "k;"),
  (strBytes "<F11>", [CSI] ++ strBytes "F1"),
  (strBytes "<F12>", [CSI] ++ strBytes "F2")]

/-- convert_keylabel: look the label up in the table (the C code compares
the label length and then the bytes; list equality captures both). -/
def convertKeylabel (lbl : List Nat) : Option (List Nat) :=
  (keylabels.find? fun e => e.1 == lbl).map (·.2)

/-- The symlen scan of convert_keys over the bytes after a `<`: stop
(without counting) at end of input, at `<` or at a space, and count the
closing `>` when it is found. -/
def symLen : List Nat → Nat → Nat
  | [], k => k
  | c :: rest, k =>
    if c == 60 || c == 32 then k
    else if c == 62 then k + 1
    else symLen rest (k + 1)

/-- The scan loop of convert_keys: bytes other than `<` pass through
literally; at a `<`, the bracketed token is examined — a five-byte
`<C-X>` with an uppercase `X` in `0x41..0x5d` becomes the byte
`X - 0x40`, a lowercase `X` in `0x61..0x7a` becomes `X - 0x60`;
otherwise the keylabel table is consulted; an unconvertible token is
passed through literally.  Each round consumes at least one byte, so
fuel `input.length` suffices. -/
def convertKeysGo : Nat → List Nat → List Nat → List Nat
  | 0, _, acc => acc
  | _ + 1, [], acc => acc
  | fuel + 1, c :: rest, acc =>
    if c != 60 then convertKeysGo fuel rest (acc ++ [c])
    else
      let sl := symLen rest 1
      let lbl := (c :: rest).take sl
      let raw : List Nat :=
        if lbl.getD (sl - 1) 0 == 62 then
          let cx : List Nat :=
            if sl == 5 && lbl.getD 2 0 == 45 && lbl.getD 1 0 == 67 then
              let x := lbl.getD 3 0
              if 0x41 ≤ x && x ≤ 0x5d then [x - 0x40]
              else if 0x61 ≤ x && x ≤ 0x7a then [x - 0x60]
              else []
            else []
          if cx != [] then cx
          else
            match convertKeylabel lbl with
            | some r => r
            | none => lbl
        else lbl
      convertKeysGo fuel ((c :: rest).drop sl) (acc ++ raw)

/-- convert_keys of map.c. -/
def convertKeys (l : List Nat) : List Nat := convertKeysGo (l.length + 1) l []

/-! Helper lemmas. -/

/-- Passing an already-selected accumulator through `findExact` can only
yield a rule whose input is at least as long. -/
theorem findExact_acc_le (mode : Nat) (q : List Nat) :
    ∀ (rules : List MapRule) (a m : MapRule),
      findExact mode q rules (some a) = some m → a.inp.length ≤ m.inp.length := by
  intro rules
  induction rules with
  | nil =>
    intro a m h
    simp only [findExact, Option.some.injEq] at h
    exact h ▸ Nat.le_refl _
  | cons r rest ih =>
    intro a m h
    simp only [findExact] at h
    by_cases hc : (isExactCand mode q r && decide (a.inp.length < r.inp.length)) = true
    · rw [if_pos hc] at h
      have hlt : a.inp.length < r.inp.length :=
        of_decide_eq_true ((Bool.and_eq_true _ _).mp hc).2
      have := ih r m h
      omega
    · rw [if_neg hc] at h
      exact ih a m h

/-- The exact-match scan of map_handle_keys selects a rule whose input is
maximal among all exact candidates in the rule list, regardless of the
incoming accumulator. -/
theorem findExact_maximal (mode : Nat) (q : List Nat) :
    ∀ (rules : List MapRule) (acc : Option MapRule) (m : MapRule),
      findExact mode q rules acc = some m →
      ∀ m' ∈ rules, isExactCand mode q m' = true → m'.inp.length ≤ m.inp.length := by
  intro rules
  induction rules with
  | nil => intro acc m _ m' hm'; simp at hm'
  | cons r rest ih =>
    intro acc m h m' hm' hcand
    rcases List.mem_cons.mp hm' with rfl | hm'
    · -- the head rule either becomes the accumulator or loses to a longer one
      rcases acc with _ | a
      · simp only [findExact, hcand, Bool.and_true, Bool.true_and, if_pos] at h
        exact findExact_acc_le mode q rest m' m h
      · simp only [findExact] at h
        by_cases hlt : (decide (a.inp.length < m'.inp.length)) = true
        · rw [if_pos (by simp [hcand, hlt])] at h
          exact findExact_acc_le mode q rest m' m h
        · have hge : m'.inp.length ≤ a.inp.length := by
            have := of_decide_eq_false (Bool.not_eq_true _ ▸ hlt)
            omega
          rw [if_neg (by simp only [Bool.and_eq_true]; intro hand; exact hlt hand.2)] at h
          have := findExact_acc_le mode q rest a m h
          omega
    · -- a rule further down the list, with whatever the head left as accumulator
      rcases acc with _ | a
      · simp only [findExact] at h
        exact ih _ m h m' hm' hcand
      · simp only [findExact] at h
        exact ih _ m h m' hm' hcand

/-- Value of a digit string in base 10, most significant digit first. -/
def digitsVal (ds : List Char) : Nat :=
  ds.foldl (fun a c => a * 10 + (c.toNat - 48)) 0

/-- Whether a list does not begin with a decimal digit (true also for the
empty list, matching parse_count reading the NUL terminator there). -/
def noLeadDigit : List Char → Bool
  | [] => true
  | c :: _ => !c.isDigit

/-- The digit loop of parse_count consumes exactly the leading digits and
folds them onto the incoming count. -/
theorem parseCountGo_append :
    ∀ (ds rest : List Char) (cnt : Nat), (∀ c ∈ ds, c.isDigit = true) →
      noLeadDigit rest = true →
      parseCountGo (ds ++ rest) cnt
        = (rest, ds.foldl (fun a c => a * 10 + (c.toNat - 48)) cnt) := by
  intro ds
  induction ds with
  | nil =>
    intro rest cnt _ hrest
    cases rest with
    | nil => simp [parseCountGo]
    | cons c t =>
      have hc : c.isDigit = false := by
        simpa [noLeadDigit] using hrest
      simp [parseCountGo, hc]
  | cons d ds ih =>
    intro rest cnt hds hrest
    have hd : d.isDigit = true := hds d (List.mem_cons_self d ds)
    simp only [List.cons_append, parseCountGo, hd, if_true, List.foldl_cons]
    exact ih rest _ (fun c hc => hds c (List.mem_cons_of_mem d hc)) hrest

/-- Folding digits onto a count `cnt` equals shifting `cnt` by the number
of digits and adding the digit string's own value. -/
theorem foldl_digits_shift :
    ∀ (ds : List Char) (cnt : Nat),
      ds.foldl (fun a c => a * 10 + (c.toNat - 48)) cnt
        = cnt * 10 ^ ds.length + digitsVal ds := by
  intro ds
  induction ds with
  | nil => intro cnt; simp [digitsVal]
  | cons d ds ih =>
    intro cnt
    simp only [digitsVal, List.foldl_cons, List.length_cons] at *
    rw [ih (cnt * 10 + (d.toNat - 48)), ih (0 * 10 + (d.toNat - 48))]
    ring

/-- Name of the command-table entry at an index. -/
def nameOf (i : Nat) : List Char := (commandAt i).name

/-- Appending one non-NUL character to a candidate name: the longer name
leads the table entry exactly when the shorter one does and the entry's
next character (NUL past the end) is that character. -/
theorem isPrefixOf_snoc (c : Char) (hc : c ≠ nulChar) :
    ∀ (p nm : List Char),
      (p ++ [c]).isPrefixOf nm
        = (p.isPrefixOf nm && (charAtOrNul nm p.length == c)) := by
  intro p
  induction p with
  | nil =>
    intro nm
    cases nm with
    | nil => simp [List.isPrefixOf, charAtOrNul, Ne.symm hc]
    | cons d nm' =>
      by_cases h : c = d <;> simp [List.isPrefixOf, charAtOrNul, h]
      · exact fun h' => h h'.symm
  | cons a p' ih =>
    intro nm
    cases nm with
    | nil => simp [List.isPrefixOf]
    | cons b nm' =>
      simp only [List.cons_append, List.isPrefixOf, List.length_cons,
        List.append_eq]
      rw [ih nm']
      simp [charAtOrNul, Bool.and_assoc]

/-- For a NUL-free candidate `p`, the C `strncmp(name, p, |p|) == 0` test
of the scan is exactly the Boolean prefix test. -/
theorem cstrncmpEqC_eq_isPrefixOf :
    ∀ (p nm : List Char), nulChar ∉ p →
      cstrncmpEqC nm p p.length = p.isPrefixOf nm := by
  intro p
  induction p with
  | nil => intro nm _; cases nm <;> simp [cstrncmpEqC, List.isPrefixOf]
  | cons a p' ih =>
    intro nm hnin
    have ha : a ≠ nulChar := fun h => hnin (h ▸ List.mem_cons_self a p')
    have hnin' : nulChar ∉ p' := fun h => hnin (List.mem_cons_of_mem a h)
    cases nm with
    | nil => simp [cstrncmpEqC, List.isPrefixOf, ha]
    | cons b nm' =>
      show cstrncmpEqC (b :: nm') (a :: p') (p'.length + 1)
        = (a :: p').isPrefixOf (b :: nm')
      by_cases hba : b = a
      · subst hba
        rw [show cstrncmpEqC (b :: nm') (b :: p') (p'.length + 1)
              = cstrncmpEqC nm' p' p'.length from by
            simp only [cstrncmpEqC]
            rw [if_neg (fun h => h rfl), if_neg (by simp [ha])]]
        rw [ih nm' hnin']
        simp [List.isPrefixOf]
      · have h1 : cstrncmpEqC (b :: nm') (a :: p') (p'.length + 1) = false := by
          simp only [cstrncmpEqC]
          rw [if_pos hba]
        rw [h1]
        simp [List.isPrefixOf, Ne.symm hba]

/-- Whether a table entry's name extends the accumulated name `p` by the
character `c`. -/
def nameExtends (p : List Char) (c : Char) (e : ExInfo) : Bool :=
  (p ++ [c]).isPrefixOf e.name

/-- Once the scan has recorded a match (`matches ≠ 0`), the recorded first
index never changes and the match count stays positive. -/
theorem scanGo_keep (p : List Char) (c : Char) :
    ∀ (l : List ExInfo) (i f m : Nat), m ≠ 0 →
      (scanGo p c i l f m).1 = f ∧ (scanGo p c i l f m).2 ≠ 0 := by
  intro l
  induction l with
  | nil => intro i f m hm; exact ⟨rfl, hm⟩
  | cons e l' ih =>
    intro i f m hm
    simp only [scanGo]
    split
    · exact ⟨rfl, hm⟩
    · split
      · rw [if_neg (by simp [hm])]
        exact ih (i + 1) f (m + 1) (Nat.succ_ne_zero m)
      · exact ih (i + 1) f m hm

/-- A fresh scan (incoming match count 0) that ends with a positive match
count found its first match at some offset: the recorded index is the
scan start plus that offset, the entry there extends the accumulated name
by the current character, and no earlier scanned entry does. -/
theorem scanGo_found (p : List Char) (c : Char) (hc : c ≠ nulChar)
    (hp : nulChar ∉ p) :
    ∀ (l : List ExInfo) (i f : Nat), (scanGo p c i l f 0).2 ≠ 0 →
      ∃ off, off < l.length ∧ (scanGo p c i l f 0).1 = i + off ∧
        nameExtends p c (l.getD off default) = true ∧
        ∀ j, j < off → nameExtends p c (l.getD j default) = false := by
  intro l
  induction l with
  | nil => intro i f h; simp [scanGo] at h
  | cons e l' ih =>
    intro i f h
    by_cases hbr : (!p.isEmpty && !cstrncmpEqC e.name p p.length) = true
    · rw [scanGo, if_pos hbr] at h
      simp at h
    · have hpref : p.isPrefixOf e.name = true := by
        rcases Bool.and_eq_false_iff.mp (Bool.not_eq_true _ ▸ hbr) with h1 | h1
        · have : p.isEmpty = true := by
            cases hp' : p.isEmpty
            · rw [hp'] at h1; simp at h1
            · rfl
          rw [List.isEmpty_iff.mp this]
          cases hnm : e.name <;> rfl
        · have : cstrncmpEqC e.name p p.length = true := by
            cases hcs : cstrncmpEqC e.name p p.length
            · rw [hcs] at h1; simp at h1
            · rfl
          rw [← cstrncmpEqC_eq_isPrefixOf p e.name hp]
          exact this
      by_cases hhit : (charAtOrNul e.name p.length == c) = true
      · -- found at the head entry
        have hred : scanGo p c i (e :: l') f 0 = scanGo p c (i + 1) l' i 1 := by
          rw [scanGo, if_neg hbr, if_pos hhit]
          norm_num
        have hkeep := scanGo_keep p c l' (i + 1) i 1 (Nat.one_ne_zero)
        refine ⟨0, by simp, ?_, ?_, fun j hj => absurd hj (Nat.not_lt_zero j)⟩
        · rw [hred, hkeep.1]; omega
        · show nameExtends p c e = true
          rw [nameExtends, isPrefixOf_snoc c hc p e.name, hpref, hhit]
          rfl
      · -- the head entry neither matches nor breaks: the find is further on
        have hred : scanGo p c i (e :: l') f 0 = scanGo p c (i + 1) l' f 0 := by
          rw [scanGo, if_neg hbr, if_neg hhit]
        rw [hred] at h
        obtain ⟨off, hlen, hfst, hext, hprev⟩ := ih (i + 1) f h
        refine ⟨off + 1, by simpa using Nat.succ_lt_succ hlen, ?_, ?_, ?_⟩
        · rw [hred, hfst]; omega
        · simpa using hext
        · intro j hj
          cases j with
          | zero =>
            show nameExtends p c e = false
            have hhf : (charAtOrNul e.name p.length == c) = false :=
              Bool.eq_false_iff.mpr hhit
            rw [nameExtends, isPrefixOf_snoc c hc p e.name, hhf]
            simp
          | succ j' => simpa using hprev j' (Nat.lt_of_succ_lt_succ hj)

/-- `getD` on a dropped list reads the original list at the shifted
index. -/
theorem getD_drop_exinfo (l : List ExInfo) :
    ∀ (i j : Nat), (l.drop i).getD j default = l.getD (i + j) default := by
  induction l with
  | nil => intro i j; simp
  | cons e t ih =>
    intro i j
    cases i with
    | zero => simp
    | succ i' =>
      rw [List.drop_succ_cons, ih i' j, Nat.succ_add, List.getD_cons_succ]

/-- Claim C3: with rules for inputs `ab` and `abc` (mode `n`) and an empty
queue, feeding `a` and then `b` returns MAP_AMBIGUOUS both times, leaving
the queue bytes unconsumed and emitting nothing; the subsequent timeout
pass (key length 0) resolves via the exact match `ab`, emitting exactly
that rule's mapped output — not the literal bytes `a` `b`. -/
theorem c3_ambiguity_then_timeout_resolves :
    mapHandleKeys [⟨[97, 98], [120], 110⟩, ⟨[97, 98, 99], [121], 110⟩]
        110 true 50 10 initMapState [97]
      = some (.ambiguous, ⟨[97], 0, false⟩, []) ∧
    mapHandleKeys [⟨[97, 98], [120], 110⟩, ⟨[97, 98, 99], [121], 110⟩]
        110 true 50 10 ⟨[97], 0, false⟩ [98]
      = some (.ambiguous, ⟨[97, 98], 0, false⟩, []) ∧
    mapHandleKeys [⟨[97, 98], [120], 110⟩, ⟨[97, 98, 99], [121], 110⟩]
        110 true 50 10 ⟨[97, 98], 0, false⟩ []
      = some (.done, ⟨[], 0, false⟩, [120]) ∧
    (⟨[97, 98], [120], 110⟩ : MapRule).mapped.map byteToKeyInt = [(120 : Int)] ∧
    ([(120 : Int)] : List Int) ≠ [(97 : Int), (98 : Int)] := by
  refine ⟨by decide, by decide, by decide, by decide, by decide⟩

/-- Claim C4: the exact-candidate scan selects a rule of maximal input
length among all exact candidates (so selection is independent of
insertion order whenever lengths differ), and concretely with rules
`g→X` and `gg→Y` (mode `n`) feeding `gg` emits `Y` — in either insertion
order, and never `X`. -/
theorem c4_longest_input_wins :
    (∀ (mode : Nat) (q : List Nat) (rules : List MapRule) (m : MapRule),
        findExact mode q rules none = some m →
        ∀ m' ∈ rules, isExactCand mode q m' = true → m'.inp.length ≤ m.inp.length) ∧
    mapHandleKeys [⟨[103], [88], 110⟩, ⟨[103, 103], [89], 110⟩]
        110 true 50 10 initMapState [103, 103]
      = some (.done, ⟨[], 0, false⟩, [89]) ∧
    mapHandleKeys [⟨[103, 103], [89], 110⟩, ⟨[103], [88], 110⟩]
        110 true 50 10 initMapState [103, 103]
      = some (.done, ⟨[], 0, false⟩, [89]) := by
  refine ⟨fun mode q rules m h => findExact_maximal mode q rules none m h,
    by decide, by decide⟩

/-- Witness for C4: instantiating the maximality statement at the
concrete `g`/`gg` rules. -/
theorem c4_longest_input_wins_witness :
    (⟨[103], [88], 110⟩ : MapRule).inp.length
      ≤ (⟨[103, 103], [89], 110⟩ : MapRule).inp.length :=
  c4_longest_input_wins.1 110 [103, 103]
    [⟨[103], [88], 110⟩, ⟨[103, 103], [89], 110⟩] ⟨[103, 103], [89], 110⟩
    (by decide) ⟨[103], [88], 110⟩ (by decide) (by decide)

/-- Claim C5: after a splice the resolved counter is exactly
`min inlen mappedlen`; with the rule `a→bc` only the first byte (`b`) is
final and the surplus `c` re-enters matching (here remapped by `c→d`), so
feeding `a` emits `b` then `d`. -/
theorem c5_resolved_is_min :
    (∀ m : MapRule,
        resolvedOf m = min (m.inp.length : Int) (m.mapped.length : Int)) ∧
    spliceQueue ⟨[97], [98, 99], 110⟩ [97] = [98, 99] ∧
    resolvedOf ⟨[97], [98, 99], 110⟩ = 1 ∧
    mapHandleKeys [⟨[97], [98, 99], 110⟩, ⟨[99], [100], 110⟩]
        110 true 50 10 initMapState [97]
      = some (.done, ⟨[], 0, false⟩, [98, 100]) := by
  refine ⟨fun m => ?_, by decide, by decide, by decide⟩
  rw [resolvedOf]
  split <;> omega

/-- Claim C7 (code bug): the good escaping cases hold — `\<space>` yields
a space, `\<X>` with X a non-space keeps both characters, an escaped `|`
does not terminate the rhs — but an input whose last character is a
backslash does not produce a lone backslash: the dead `if (!*input)`
pointer test makes the code append the backslash plus the NUL terminator
and advance the read pointer past the end of the buffer (modelled as
`overrun`). -/
theorem c7_escaping_and_trailing_backslash :
    parseRhs "bar\\ baz".toList = .ok "bar baz".toList [] ∧
    parseRhs "a\\|b|c".toList = .ok "a\\|b".toList "|c".toList ∧
    parseLhs "a\\ b\\cd".toList = .ok "a b\\cd".toList [] ∧
    parseRhs "ab\\".toList = .overrun ('a' :: 'b' :: '\\' :: [nulChar]) ∧
    parseLhs "ab\\".toList = .overrun ('a' :: 'b' :: '\\' :: [nulChar]) ∧
    (ParsePR.overrun ('a' :: 'b' :: '\\' :: [nulChar]))
      ≠ .ok "ab\\".toList [] := by
  refine ⟨by decide, by decide, by decide, by decide, by decide, by decide⟩

/-- Counterexample for C8: `:open a` and `:0open a` produce identical
parsed ExArg values — the count field is the int 0 in both, so absence of
a count is not distinct from an explicit zero count. -/
theorem c8_count_cex :
    exParse "open a".toList initExArg
      = .ok [] ⟨0, 9, .EX_OPEN, false, [], ['a']⟩ ∧
    exParse "0open a".toList initExArg
      = .ok [] ⟨0, 9, .EX_OPEN, false, [], ['a']⟩ := by
  refine ⟨by decide, by decide⟩

/-- Claim C8 as amended: when the input has no leading digit, parse_count
assigns the count 0 and consumes nothing — the same value an explicit `0`
digit produces, so the two states are indistinguishable. -/
theorem c8_count_absent_assigned_zero :
    (∀ (l : List Char) (cnt : Nat), noLeadDigit l = true → parseCount l cnt = (l, 0)) ∧
    (parseCount "0open a".toList 0).2 = 0 := by
  refine ⟨?_, by decide⟩
  intro l cnt h
  cases l with
  | nil => simp [parseCount]
  | cons c t =>
    have hc : c.isDigit = false := by simpa [noLeadDigit] using h
    simp [parseCount, hc]

/-- Witness for C8: the zero-assignment applied to `open a` with a stale
count of 5. -/
theorem c8_count_absent_assigned_zero_witness :
    parseCount "open a".toList 5 = ("open a".toList, 0) :=
  c8_count_absent_assigned_zero.1 "open a".toList 5 (by decide)

/-- Counterexample for C2: with every dispatched operation failing,
`ex_run_string` on `open a|open b` dispatches only the first segment and
returns false — the second segment is never parsed or dispatched, though
(second conjunct) the same line dispatches both segments when execution
succeeds. -/
theorem c2_execute_failure_aborts_cex :
    exRunString (fun _ => false) 10 "open a|open b".toList
      = some (.finished false [⟨0, 9, .EX_OPEN, false, [], ['a']⟩]) ∧
    exRunString (fun _ => true) 10 "open a|open b".toList
      = some (.finished true [⟨0, 9, .EX_OPEN, false, [], ['a']⟩,
          ⟨0, 9, .EX_OPEN, false, [], ['b']⟩]) := by
  refine ⟨by decide, by decide⟩

/-- Claim C2 as amended: in any `ex_run_string` run, every dispatched
command except possibly the last reported success (so a dispatch failure
aborts the remaining segments just like a parse failure does), a run that
returns true had only successful dispatches, and a parse failure of the
current segment stops the loop at once with result false and no further
dispatch. -/
theorem c2_any_failure_aborts (exec : ExArg → Bool) :
    (∀ (fuel : Nat) (input : List Char) (arg : ExArg) (tr : List ExArg)
        (b : Bool) (res : List ExArg), (∀ a ∈ tr, exec a = true) →
        exRunStringGo exec fuel input arg tr = some (.finished b res) →
        (∀ a ∈ res.dropLast, exec a = true) ∧
        (b = true → ∀ a ∈ res, exec a = true)) ∧
    (∀ (fuel : Nat) (input : List Char) (arg : ExArg) (tr : List ExArg),
        input ≠ [] → exParse input arg = .fail →
        exRunStringGo exec (fuel + 1) input arg tr = some (.finished false tr)) := by
  constructor
  · intro fuel
    induction fuel with
    | zero =>
      intro input arg tr b res _ h
      simp [exRunStringGo] at h
    | succ n ih =>
      intro input arg tr b res htr h
      simp only [exRunStringGo] at h
      split at h
      · -- input empty: the run ends successfully with the trace so far
        simp only [Option.some.injEq, RunOut.finished.injEq] at h
        obtain ⟨hb, hres⟩ := h
        subst hb; subst hres
        exact ⟨fun a ha => htr a ((List.dropLast_sublist tr).subset ha),
          fun _ a ha => htr a ha⟩
      · split at h
        · -- parse failure: result is false with the trace so far
          simp only [Option.some.injEq, RunOut.finished.injEq] at h
          obtain ⟨hb, hres⟩ := h
          subst hres
          exact ⟨fun a ha => htr a ((List.dropLast_sublist tr).subset ha),
            fun hb' => absurd (hb.trans hb') (by simp)⟩
        · -- undefined behavior cannot produce a finished result
          simp at h
        · -- parsed: split on the dispatch outcome
          rename_i rest' arg' _
          split at h
          · rename_i hexec
            refine ih rest' arg' (tr ++ [arg']) b res ?_ h
            intro a ha
            rcases List.mem_append.mp ha with h1 | h2
            · exact htr a h1
            · rwa [List.mem_singleton.mp h2]
          · rename_i hexec
            simp only [Option.some.injEq, RunOut.finished.injEq] at h
            obtain ⟨hb, hres⟩ := h
            subst hres
            constructor
            · rw [List.dropLast_concat]
              exact fun a ha => htr a ha
            · exact fun hb' => absurd (hb.trans hb') (by simp)
  · intro fuel input arg tr hne hfail
    cases input with
    | nil => exact absurd rfl hne
    | cons c t => simp [exRunStringGo, hfail]

/-- Witness for C2: the amended statement applied to the failing-oracle
run of `open a|open b`. -/
theorem c2_any_failure_aborts_witness :
    (∀ a ∈ ([⟨0, 9, .EX_OPEN, false, [], ['a']⟩] : List ExArg).dropLast,
        (fun (_ : ExArg) => false) a = true) ∧
    (false = true → ∀ a ∈ ([⟨0, 9, .EX_OPEN, false, [], ['a']⟩] : List ExArg),
        (fun (_ : ExArg) => false) a = true) :=
  (c2_any_failure_aborts (fun _ => false)).1 10 "open a|open b".toList initExArg
    [] false [⟨0, 9, .EX_OPEN, false, [], ['a']⟩] (by simp) (by decide)

/-- Claim C10: within one ex_run_string call the count accumulates across
pipe segments — leading digits fold onto the previous segment's count
(`cnt * 10 ^ |D| + D`), and the count resets only on a digit-free segment
start; concretely `:2open a|3open b` dispatches the second command with
count 23. -/
theorem c10_count_accumulates :
    (∀ (ds rest : List Char) (cnt : Nat), ds ≠ [] →
        (∀ c ∈ ds, c.isDigit = true) → noLeadDigit rest = true →
        parseCount (ds ++ rest) cnt
          = (rest, cnt * 10 ^ ds.length + digitsVal ds)) ∧
    exRunString (fun _ => true) 10 "2open a|3open b".toList
      = some (.finished true [⟨2, 9, .EX_OPEN, false, [], ['a']⟩,
          ⟨23, 9, .EX_OPEN, false, [], ['b']⟩]) ∧
    23 = 2 * 10 ^ 1 + 3 := by
  refine ⟨?_, by decide, by decide⟩
  intro ds rest cnt hne hds hrest
  cases ds with
  | nil => exact absurd rfl hne
  | cons d t =>
    have hd : d.isDigit = true := hds d (List.mem_cons_self d t)
    simp only [List.cons_append, parseCount, hd, if_true]
    rw [show d :: (t ++ rest) = (d :: t) ++ rest from rfl,
      parseCountGo_append (d :: t) rest cnt hds hrest, foldl_digits_shift]

/-- Witness for C10: the accumulation formula applied to the second
segment of `:2open a|3open b` (digits `3` onto the previous count 2). -/
theorem c10_count_accumulates_witness :
    parseCount (['3'] ++ "open b".toList) 2
      = ("open b".toList, 2 * 10 ^ 1 + digitsVal ['3']) :=
  c10_count_accumulates.1 ['3'] "open b".toList 2 (by decide) (by decide) (by decide)

/-- Counterexample for C9: the label converter passes `<C-8>` through
literally (five bytes), while the key-event encoder turns Ctrl plus the
digit 8 into the single backspace byte 0x08 — the two disagree on this
Ctrl combination. -/
theorem c9_ctrl8_mismatch_cex :
    convertKeys (strBytes "<C-8>") = strBytes "<C-8>" ∧
    keyvalToString 0x38 GDK_CONTROL_MASK = [KEY_BS] ∧
    convertKeys (strBytes "<C-8>") ≠ keyvalToString 0x38 GDK_CONTROL_MASK := by
  refine ⟨by decide, by decide, by decide⟩

/-- Claim C9 as amended: for every letter X the label `<C-X>` and the
Ctrl-modified key event of X encode to the same single control byte
(uppercase code − 0x40, lowercase code − 0x60); the digit-8 backspace
special case exists only in the key-event encoder, the label `<C-8>`
being passed through literally. -/
theorem c9_ctrl_letter_agreement :
    (∀ x, x < 123 →
        (0x41 ≤ x ∧ x ≤ 0x5a) ∨ (0x61 ≤ x ∧ x ≤ 0x7a) →
        convertKeys [60, 67, 45, x, 62] = keyvalToString x GDK_CONTROL_MASK ∧
        keyvalToString x GDK_CONTROL_MASK
          = [if 0x61 ≤ x then x - 0x60 else x - 0x40]) ∧
    convertKeys (strBytes "<C-8>") = strBytes "<C-8>" ∧
    keyvalToString 0x38 GDK_CONTROL_MASK = [KEY_BS] := by
  refine ⟨by decide, by decide, by decide⟩

/-- Witness for C9: agreement at the lowercase letter `g` (0x67). -/
theorem c9_ctrl_letter_agreement_witness :
    convertKeys [60, 67, 45, 0x67, 62] = keyvalToString 0x67 GDK_CONTROL_MASK ∧
    keyvalToString 0x67 GDK_CONTROL_MASK
      = [if 0x61 ≤ 0x67 then 0x67 - 0x60 else 0x67 - 0x40] :=
  c9_ctrl_letter_agreement.1 0x67 (by decide) (by decide)

/-- The command-name loop: when it succeeds it has consumed a non-empty
chunk of the input, and (given the invariant that no entry before `first`
is led by the accumulated name `p`) the selected index is led by `p` plus
the consumed chunk while no earlier table entry is. -/
theorem parseCmdNameGo_spec :
    ∀ (input p : List Char) (first idx : Nat) (rest : List Char),
      nulChar ∉ input → nulChar ∉ p →
      (∀ j, j < first → p.isPrefixOf (nameOf j) = false) →
      parseCmdNameGo input p first = some (idx, rest) →
      ∃ k, 1 ≤ k ∧ k ≤ input.length ∧ rest = input.drop k ∧
        (p ++ input.take k).isPrefixOf (nameOf idx) = true ∧
        ∀ j, j < idx → (p ++ input.take k).isPrefixOf (nameOf j) = false := by
  intro input
  induction input with
  | nil =>
    intro p first idx rest _ _ _ h
    simp [parseCmdNameGo] at h
  | cons c rest0 ih =>
    intro p first idx rest hnin hninp hinv h
    have hc : c ≠ nulChar := fun hcc => hnin (hcc ▸ List.mem_cons_self c rest0)
    have hninr : nulChar ∉ rest0 := fun hm => hnin (List.mem_cons_of_mem c hm)
    simp only [parseCmdNameGo] at h
    by_cases hz : ((scanFrom p c first).2 == 0) = true
    · rw [if_pos hz] at h
      simp at h
    · rw [if_neg hz] at h
      have hm : (scanFrom p c first).2 ≠ 0 := by simpa using hz
      obtain ⟨off, hoff, hfst, hext, hprev⟩ :=
        scanGo_found p c hc hninp (commandsList.drop first) first first hm
      have hf'eq : (scanFrom p c first).1 = first + off := hfst
      have hextN : (p ++ [c]).isPrefixOf (nameOf (first + off)) = true := by
        have := hext
        rwa [getD_drop_exinfo, nameExtends] at this
      have hprevN : ∀ j, j < first + off →
          (p ++ [c]).isPrefixOf (nameOf j) = false := by
        intro j hj
        by_cases hjf : j < first
        · rw [isPrefixOf_snoc c hc p (nameOf j), hinv j hjf, Bool.false_and]
        · have hj' : j - first < off := by omega
          have := hprev (j - first) hj'
          rwa [getD_drop_exinfo, Nat.add_sub_cancel' (by omega),
            nameExtends] at this
      by_cases hstop : (rest0.isEmpty || (rest0.headD nulChar == ' ')) = true
      · rw [if_pos hstop] at h
        simp only [Option.some.injEq, Prod.mk.injEq] at h
        obtain ⟨hidx, hrest⟩ := h
        refine ⟨1, Nat.le_refl 1, by simp, by simp [← hrest], ?_, ?_⟩
        · simp only [List.take_succ_cons, List.take_zero]
          rw [← hidx, hf'eq]
          exact hextN
        · intro j hj
          simp only [List.take_succ_cons, List.take_zero]
          exact hprevN j (by rw [← hf'eq, hidx]; exact hj)
      · rw [if_neg hstop] at h
        have hninp' : nulChar ∉ p ++ [c] := by
          intro hmem
          rcases List.mem_append.mp hmem with h1 | h1
          · exact hninp h1
          · exact hc (List.mem_singleton.mp h1).symm
        obtain ⟨k', hk1, hk2, hrest, hext', hprev'⟩ :=
          ih (p ++ [c]) (scanFrom p c first).1 idx rest hninr hninp'
            (fun j hj => hprevN j (by rw [hf'eq] at hj; exact hj)) h
        refine ⟨k' + 1, by omega, by simp; omega, by simpa using hrest, ?_, ?_⟩
        · rw [List.take_succ_cons, List.append_cons p c]
          exact hext'
        · intro j hj
          rw [List.take_succ_cons, List.append_cons p c]
          exact hprev' j hj

/-- Claim C6: whenever parse_command_name succeeds, the selected table
index is the first (least) entry of the order-significant command table
whose name is led by the consumed input chunk — on ambiguity the earliest
declared candidate wins; concretely the ambiguous chunk `qp` selects
entry 12, `qpop`, the earliest of the still-tied `qpop`/`qpush`. -/
theorem c6_first_entry_selected :
    (∀ (input : List Char) (idx : Nat) (rest : List Char),
        nulChar ∉ input →
        parseCommandName input = some (idx, rest) →
        ∃ k, 1 ≤ k ∧ k ≤ input.length ∧ rest = input.drop k ∧
          (input.take k).isPrefixOf (nameOf idx) = true ∧
          ∀ j, j < idx → (input.take k).isPrefixOf (nameOf j) = false) ∧
    parseCommandName "qp".toList = some (12, []) ∧
    nameOf 12 = "qpop".toList ∧ nameOf 13 = "qpush".toList := by
  refine ⟨?_, by decide, by decide, by decide⟩
  intro input idx rest hnin h
  have hs := parseCmdNameGo_spec input [] 0 idx rest hnin
    (by simp) (fun j hj => absurd hj (Nat.not_lt_zero j)) h
  simpa using hs

/-- Witness for C6: the first-surviving-entry property applied to the
ambiguous input `qp`. -/
theorem c6_first_entry_selected_witness :
    ∃ k, 1 ≤ k ∧ k ≤ ("qp".toList).length ∧ ([] : List Char) = "qp".toList.drop k ∧
      ("qp".toList.take k).isPrefixOf (nameOf 12) = true ∧
      ∀ j, j < 12 → ("qp".toList.take k).isPrefixOf (nameOf j) = false :=
  c6_first_entry_selected.1 "qp".toList 12 [] (by decide) (by decide)

/-- A run of equal bytes extended by one differing tail byte agrees with
the same run extended by the first byte of that tail on the first `n + 1`
positions (the strncmp comparison of the C1 overflow scenario). -/
theorem cstrncmpEq_rep :
    ∀ n : Nat, cstrncmpEq (List.replicate n 99 ++ [100, 101])
      (List.replicate n 99 ++ [100]) (n + 1) = true := by
  intro n
  induction n with
  | zero => decide
  | succ n ih =>
    rw [List.replicate_succ, List.cons_append, List.cons_append]
    show cstrncmpEq (99 :: (List.replicate n 99 ++ [100, 101]))
      (99 :: (List.replicate n 99 ++ [100])) (n + 1 + 1) = true
    rw [show cstrncmpEq (99 :: (List.replicate n 99 ++ [100, 101]))
        (99 :: (List.replicate n 99 ++ [100])) (n + 1 + 1)
        = cstrncmpEq (List.replicate n 99 ++ [100, 101])
          (List.replicate n 99 ++ [100]) (n + 1) from by
      simp [cstrncmpEq]]
    exact ih

/-- One resolver iteration on a fully drained state (`resolved = 0`) with
a non-empty queue and an ambiguous candidate returns MAP_AMBIGUOUS with
the state untouched. -/
theorem runLoop_ambiguous_exit (rules : List MapRule) (mode : Nat)
    (timeout : Bool) (fuel : Nat) (q : List Nat) (lastMatch : Option MapRule)
    (em : List Int) (hq : q ≠ [])
    (hamb : hasAmbiguous rules mode timeout q = true) :
    runLoop rules mode true timeout (fuel + 1) ⟨q, 0, false⟩ lastMatch em
      = some (.ambiguous, ⟨q, 0, false⟩, em) := by
  have hql : (q.length == 0) = false := by
    simp only [beq_eq_false_iff_ne, ne_eq, List.length_eq_zero]
    exact hq
  simp [runLoop, drainGo, hql, hamb]

/-- One resolver iteration on a fully drained state with a non-empty
queue, no ambiguity and a found match performs the splice and continues
with `resolved = min(inlen, mappedlen)` and the match recorded. -/
theorem runLoop_match_step (rules : List MapRule) (mode : Nat)
    (timeout : Bool) (fuel : Nat) (q : List Nat) (lastMatch : Option MapRule)
    (em : List Int) (m : MapRule) (hq : q ≠ [])
    (hamb : hasAmbiguous rules mode timeout q = false)
    (hfind : findExact mode q rules none = some m) :
    runLoop rules mode true timeout (fuel + 1) ⟨q, 0, false⟩ lastMatch em
      = runLoop rules mode true timeout fuel
          ⟨spliceQueue m q, resolvedOf m, false⟩ (some m) em := by
  have hql : (q.length == 0) = false := by
    simp only [beq_eq_false_iff_ne, ne_eq, List.length_eq_zero]
    exact hq
  simp [runLoop, drainGo, hql, hamb, hfind]

/-- One resolver iteration with `resolved = 1` and a non-CSI head byte
first emits that byte downstream; if the remaining queue is non-empty and
ambiguous, the iteration then returns MAP_AMBIGUOUS. -/
theorem runLoop_drain1_ambiguous (rules : List MapRule) (mode : Nat)
    (timeout : Bool) (fuel : Nat) (b : Nat) (t : List Nat)
    (lastMatch : Option MapRule) (em : List Int)
    (hb : (b == CSI) = false) (ht : t ≠ [])
    (hamb : hasAmbiguous rules mode timeout t = true) :
    runLoop rules mode true timeout (fuel + 1) ⟨b :: t, 1, false⟩ lastMatch em
      = some (.ambiguous, ⟨t, 0, false⟩, em ++ [byteToKeyInt b]) := by
  have htl : (t.length == 0) = false := by
    simp only [beq_eq_false_iff_ne, ne_eq, List.length_eq_zero]
    exact ht
  simp [runLoop, drainGo, hb, htl, hamb]

/-- Claim C1 (code bug): for every capacity, a single map_handle_keys
call from the empty queue can leave the queue longer than the capacity.
With rules `a → b·c^cap·d` and `c^cap·d·e → f` (mode `n`), feeding the one
byte `a` splices the queue up to `cap + 2` bytes (the C code performs the
growing splice on the fixed `MAP_QUEUE_SIZE` array with no bound check,
writing out of bounds), emits `b`, and returns MAP_AMBIGUOUS with
`qlen = cap + 1 > cap`. -/
theorem c1_splice_overflows_capacity :
    ∀ cap : Nat, 1 ≤ cap →
      mapHandleKeys
          [⟨[97], 98 :: (List.replicate cap 99 ++ [100]), 110⟩,
           ⟨List.replicate cap 99 ++ [100, 101], [102], 110⟩]
          110 true cap 2 initMapState [97]
        = some (.ambiguous, ⟨List.replicate cap 99 ++ [100], 0, false⟩,
            [(98 : Int)]) ∧
      cap < (List.replicate cap 99 ++ [100]).length := by
  intro cap hcap
  refine ⟨?_, by simp⟩
  obtain ⟨k, rfl⟩ : ∃ k, cap = k + 1 := ⟨cap - 1, by omega⟩
  have hamb1 : hasAmbiguous
      [⟨[97], 98 :: (List.replicate (k + 1) 99 ++ [100]), 110⟩,
       ⟨List.replicate (k + 1) 99 ++ [100, 101], [102], 110⟩]
      110 false [97] = false := by
    simp [hasAmbiguous, List.replicate_succ, cstrncmpEq]
  have hc2 : isExactCand 110 [97]
      ⟨List.replicate (k + 1) 99 ++ [100, 101], [102], 110⟩ = false := by
    simp [isExactCand]
  have hfind1 : findExact 110 [97]
      [⟨[97], 98 :: (List.replicate (k + 1) 99 ++ [100]), 110⟩,
       ⟨List.replicate (k + 1) 99 ++ [100, 101], [102], 110⟩] none
      = some ⟨[97], 98 :: (List.replicate (k + 1) 99 ++ [100]), 110⟩ := by
    simp [findExact, hc2, isExactCand, cstrncmpEq]
  have hamb2 : hasAmbiguous
      [⟨[97], 98 :: (List.replicate (k + 1) 99 ++ [100]), 110⟩,
       ⟨List.replicate (k + 1) 99 ++ [100, 101], [102], 110⟩]
      110 false (List.replicate (k + 1) 99 ++ [100]) = true := by
    simp only [hasAmbiguous, Bool.not_false, Bool.true_and, List.any_cons,
      List.any_nil, Bool.or_false, Bool.or_eq_true, Bool.and_eq_true,
      beq_iff_eq, decide_eq_true_eq]
    refine Or.inr ⟨by simp, ?_⟩
    have := cstrncmpEq_rep (k + 1)
    simpa using this
  have hstart : mapHandleKeys
      [⟨[97], 98 :: (List.replicate (k + 1) 99 ++ [100]), 110⟩,
       ⟨List.replicate (k + 1) 99 ++ [100, 101], [102], 110⟩]
      110 true (k + 1) 2 initMapState [97]
      = runLoop
          [⟨[97], 98 :: (List.replicate (k + 1) 99 ++ [100]), 110⟩,
           ⟨List.replicate (k + 1) 99 ++ [100, 101], [102], 110⟩]
          110 true false 2 ⟨[97], 0, false⟩ none [] := by
    simp [mapHandleKeys, initMapState, List.take_succ_cons]
  rw [hstart, show (2 : Nat) = 1 + 1 from rfl,
    runLoop_match_step _ _ _ _ _ _ _ _ (by simp) hamb1 hfind1]
  have hsplice : spliceQueue ⟨[97], 98 :: (List.replicate (k + 1) 99 ++ [100]), 110⟩ [97]
      = 98 :: (List.replicate (k + 1) 99 ++ [100]) := by
    simp [spliceQueue]
  have hres : resolvedOf ⟨[97], 98 :: (List.replicate (k + 1) 99 ++ [100]), 110⟩ = 1 := by
    rw [resolvedOf, if_pos (by simp)]
    simp
  rw [hsplice, hres, show (1 : Nat) = 0 + 1 from rfl,
    runLoop_drain1_ambiguous _ _ _ _ _ _ _ _ (by decide) (by simp) hamb2]
  simp [byteToKeyInt]

/-- Witness for C1: the overflow run at capacity 5. -/
theorem c1_splice_overflows_capacity_witness :
    mapHandleKeys
        [⟨[97], 98 :: (List.replicate 5 99 ++ [100]), 110⟩,
         ⟨List.replicate 5 99 ++ [100, 101], [102], 110⟩]
        110 true 5 2 initMapState [97]
      = some (.ambiguous, ⟨List.replicate 5 99 ++ [100], 0, false⟩,
          [(98 : Int)]) ∧
    5 < (List.replicate 5 99 ++ [100]).length :=
  c1_splice_overflows_capacity 5 (by decide)

end Vimb
